import Mathlib

/-!
# Verification of the subxt `frame/contracts` module

A shallow embedding of `src/frame/contracts.rs` together with the pieces of
the client pipeline it depends on (the SCALE binary codec, event extraction,
and the signed-extrinsic envelope), which are declared in this repository but
whose implementations live outside the sampled source; those parts are
modelled from the specification, as marked in their doc comments.

Bytes are modelled as natural numbers below 256; byte strings as `List Nat`.
-/

namespace Subxt

/-- Modelled from the spec: little-endian reassembly of a byte string into a
natural number, the decoding direction of the codec's integer forms. -/
def fromLE : List Nat → Nat
  | [] => 0
  | b :: rest => b + 256 * fromLE rest

/-- Modelled from the spec: the minimal little-endian byte string of a
natural number (empty for zero, no trailing zero byte otherwise). -/
def toLEBytes (n : Nat) : List Nat :=
  if h : n = 0 then [] else (n % 256) :: toLEBytes (n / 256)
decreasing_by exact Nat.div_lt_self (Nat.pos_of_ne_zero h) (by decide)

/-- Modelled from the spec: fixed-width little-endian encoding used for
unannotated integer fields (for example `Balance` as a 16-byte `u128`). -/
def fixedLE : Nat → Nat → List Nat
  | 0, _ => []
  | w + 1, n => n % 256 :: fixedLE w (n / 256)

theorem fixedLE_length (w n : Nat) : (fixedLE w n).length = w := by
  induction w generalizing n with
  | zero => rfl
  | succ k ih => simp [fixedLE, ih]

theorem fromLE_fixedLE (w n : Nat) (h : n < 256 ^ w) : fromLE (fixedLE w n) = n := by
  induction w generalizing n with
  | zero => simp at h; simp [fixedLE, fromLE, h]
  | succ k ih =>
    have hdiv : n / 256 < 256 ^ k := by
      rw [Nat.div_lt_iff_lt_mul (by decide : 0 < 256)]
      rw [Nat.pow_succ] at h; omega
    simp [fixedLE, fromLE, ih (n / 256) hdiv]
    omega

theorem toLEBytes_zero : toLEBytes 0 = [] := by
  rw [toLEBytes]; simp

theorem toLEBytes_pos (n : Nat) (h : n ≠ 0) :
    toLEBytes n = (n % 256) :: toLEBytes (n / 256) := by
  rw [toLEBytes]; simp [h]

theorem fromLE_toLEBytes (n : Nat) : fromLE (toLEBytes n) = n := by
  induction n using Nat.strong_induction_on with
  | _ n ih =>
    by_cases h : n = 0
    · simp [h, toLEBytes_zero, fromLE]
    · rw [toLEBytes_pos n h]
      simp [fromLE, ih (n / 256) (Nat.div_lt_self (Nat.pos_of_ne_zero h) (by decide))]
      omega

theorem toLEBytes_lt (n : Nat) : ∀ b ∈ toLEBytes n, b < 256 := by
  induction n using Nat.strong_induction_on with
  | _ n ih =>
    by_cases h : n = 0
    · simp [h, toLEBytes_zero]
    · rw [toLEBytes_pos n h]
      intro b hb
      rcases List.mem_cons.mp hb with h1 | h2
      · omega
      · exact ih (n / 256) (Nat.div_lt_self (Nat.pos_of_ne_zero h) (by decide)) b h2

theorem toLEBytes_ne_nil (n : Nat) (h : n ≠ 0) : toLEBytes n ≠ [] := by
  rw [toLEBytes_pos n h]; simp

/-- The minimal byte string has a nonzero top byte: the value it denotes is at
least `256 ^ (length - 1)`. -/
theorem toLEBytes_min (n : Nat) (h : n ≠ 0) :
    256 ^ ((toLEBytes n).length - 1) ≤ n := by
  induction n using Nat.strong_induction_on with
  | _ n ih =>
    rw [toLEBytes_pos n h]
    by_cases h2 : n / 256 = 0
    · simp [h2, toLEBytes_zero]
      omega
    · have hlen : toLEBytes (n / 256) ≠ [] := toLEBytes_ne_nil _ h2
      have hL : 1 ≤ (toLEBytes (n / 256)).length := by
        cases hx : toLEBytes (n / 256) with
        | nil => exact absurd hx hlen
        | cons a l => simp
      have := ih (n / 256) (Nat.div_lt_self (Nat.pos_of_ne_zero h) (by decide)) h2
      simp only [List.length_cons]
      have heq : (toLEBytes (n / 256)).length + 1 - 1 = ((toLEBytes (n / 256)).length - 1) + 1 := by
        omega
      rw [heq, pow_succ]
      have h256 : 256 ^ ((toLEBytes (n / 256)).length - 1) * 256 ≤ (n / 256) * 256 :=
        Nat.mul_le_mul_right 256 this
      omega

/-- A byte string with all bytes below 256, nonempty, whose denoted value is at
least `256 ^ (length - 1)`, is recovered by `toLEBytes` from its value. -/
theorem toLEBytes_fromLE (l : List Nat) (hlt : ∀ b ∈ l, b < 256)
    (hne : l ≠ []) (hmin : 256 ^ (l.length - 1) ≤ fromLE l) :
    toLEBytes (fromLE l) = l := by
  induction l with
  | nil => exact absurd rfl hne
  | cons b rest ih =>
    have hb : b < 256 := hlt b (List.mem_cons_self _ _)
    cases rest with
    | nil =>
      have hfb : fromLE [b] = b := by simp [fromLE]
      have hb0 : b ≠ 0 := by
        rw [hfb] at hmin
        simp at hmin
        omega
      rw [hfb, toLEBytes_pos b hb0, Nat.mod_eq_of_lt hb, Nat.div_eq_of_lt hb, toLEBytes_zero]
    | cons c rest2 =>
      have hlt2 : ∀ x ∈ c :: rest2, x < 256 := fun x hx => hlt x (List.mem_cons_of_mem _ hx)
      have hL : (b :: c :: rest2).length - 1 = ((c :: rest2).length - 1) + 1 := by
        simp
      have hfb : fromLE (b :: c :: rest2) = b + 256 * fromLE (c :: rest2) := rfl
      rw [hL, pow_succ, hfb] at hmin
      have hmin2 : 256 ^ ((c :: rest2).length - 1) ≤ fromLE (c :: rest2) := by
        by_contra hcon
        push_neg at hcon
        have h3 : (fromLE (c :: rest2) + 1) * 256 ≤ 256 ^ ((c :: rest2).length - 1) * 256 :=
          Nat.mul_le_mul_right 256 (Nat.succ_le_of_lt hcon)
        omega
      have hpos : fromLE (c :: rest2) ≠ 0 := by
        have hp : 0 < 256 ^ ((c :: rest2).length - 1) := Nat.pos_pow_of_pos _ (by decide)
        omega
      rw [hfb, toLEBytes_pos (b + 256 * fromLE (c :: rest2)) (by omega)]
      have h1 : (b + 256 * fromLE (c :: rest2)) % 256 = b := by omega
      have h2 : (b + 256 * fromLE (c :: rest2)) / 256 = fromLE (c :: rest2) := by omega
      rw [h1, h2, ih hlt2 (by simp) hmin2]

theorem toLEBytes_length_le (k : Nat) : ∀ n, n < 256 ^ k → (toLEBytes n).length ≤ k := by
  induction k with
  | zero => intro n h; simp at h; simp [h, toLEBytes_zero]
  | succ m ih =>
    intro n h
    by_cases h0 : n = 0
    · simp [h0, toLEBytes_zero]
    · rw [toLEBytes_pos n h0]
      have : n / 256 < 256 ^ m := by
        rw [Nat.div_lt_iff_lt_mul (by decide : 0 < 256)]
        rw [Nat.pow_succ] at h; omega
      simp only [List.length_cons]
      have := ih (n / 256) this
      omega

theorem toLEBytes_length_ge (k : Nat) : ∀ n, 256 ^ k ≤ n → k < (toLEBytes n).length := by
  induction k with
  | zero =>
    intro n h
    simp at h
    rw [toLEBytes_pos n (by omega)]
    simp
  | succ m ih =>
    intro n h
    have hp : 0 < 256 ^ (m + 1) := Nat.pos_pow_of_pos _ (by decide)
    have hn0 : n ≠ 0 := by omega
    rw [toLEBytes_pos n hn0]
    have : 256 ^ m ≤ n / 256 := by
      rw [Nat.le_div_iff_mul_le (by decide : 0 < 256)]
      rw [Nat.pow_succ] at h; omega
    simp only [List.length_cons]
    have := ih (n / 256) this
    omega

/-! ### Compact integer encoding

Used by the `#[codec(compact)]` fields of `InstantiateCall` (`endowment`,
`gas_limit`) and `CallCall` (`gas_limit`), and for the length prefix of byte
sequences. The two low bits of the first byte select the mode: `0b00` one
byte, `0b01` two bytes, `0b10` four bytes, `0b11` a length byte followed by
the value's minimal little-endian bytes (at least four of them). -/

/-- Modelled from the spec: the compact encoder, always picking the minimal
representation among the 1/2/4/8+-byte forms. -/
def compactEncode (n : Nat) : List Nat :=
  if n < 64 then [4 * n]
  else if n < 16384 then
    [(4 * n + 1) % 256, (4 * n + 1) / 256]
  else if n < 1073741824 then
    [(4 * n + 2) % 256, (4 * n + 2) / 256 % 256,
     (4 * n + 2) / 65536 % 256, (4 * n + 2) / 16777216 % 256]
  else
    (4 * ((toLEBytes n).length - 4) + 3) :: toLEBytes n

/-- Two-byte mode of the compact decoder (`0b01`): one further byte. -/
def compactDecodeTwo (b0 : Nat) : List Nat → Option (Nat × List Nat)
  | b1 :: rest1 =>
    if 64 ≤ (b0 + 256 * b1) / 4 then some ((b0 + 256 * b1) / 4, rest1) else none
  | [] => none

/-- Four-byte mode of the compact decoder (`0b10`): three further bytes. -/
def compactDecodeFour (b0 : Nat) : List Nat → Option (Nat × List Nat)
  | b1 :: b2 :: b3 :: rest3 =>
    if 16384 ≤ (b0 + 256 * b1 + 65536 * b2 + 16777216 * b3) / 4 then
      some ((b0 + 256 * b1 + 65536 * b2 + 16777216 * b3) / 4, rest3)
    else none
  | _ => none

/-- Big-integer mode of the compact decoder (`0b11`): `b0 / 4 + 4` further
bytes holding the value in little-endian; accepted only when the value needs
that many bytes and does not fit the four-byte mode. -/
def compactDecodeBig (b0 : Nat) (rest : List Nat) : Option (Nat × List Nat) :=
  if b0 / 4 + 4 ≤ rest.length then
    if 1073741824 ≤ fromLE (rest.take (b0 / 4 + 4)) ∧
        256 ^ (b0 / 4 + 3) ≤ fromLE (rest.take (b0 / 4 + 4)) then
      some (fromLE (rest.take (b0 / 4 + 4)), rest.drop (b0 / 4 + 4))
    else none
  else none

/-- Modelled from the spec: the compact decoder, accepting only the canonical
minimal form and rejecting non-minimal encodings as malformed (`none`). -/
def compactDecode : List Nat → Option (Nat × List Nat)
  | [] => none
  | b0 :: rest =>
    if b0 % 4 = 0 then some (b0 / 4, rest)
    else if b0 % 4 = 1 then compactDecodeTwo b0 rest
    else if b0 % 4 = 2 then compactDecodeFour b0 rest
    else compactDecodeBig b0 rest

theorem compactEncode_lt (n : Nat) (h : n < 256 ^ 67) :
    ∀ b ∈ compactEncode n, b < 256 := by
  unfold compactEncode
  split
  · intro b hb; simp at hb; omega
  · split
    · intro b hb
      simp at hb
      rcases hb with h1 | h2
      · omega
      · have : (4 * n + 1) / 256 < 256 := by omega
        omega
    · split
      · intro b hb
        simp at hb
        rcases hb with h1 | h2 | h3 | h4 <;> omega
      · intro b hb
        rcases List.mem_cons.mp hb with h1 | h2
        · have hle := toLEBytes_length_le 67 n h
          have hge : 3 < (toLEBytes n).length :=
            toLEBytes_length_ge 3 n (by omega)
          omega
        · exact toLEBytes_lt n b h2

/-- Decoding an encoding followed by arbitrary trailing bytes recovers the
value and the trailing bytes: the compact codec round-trips. -/
theorem compactDecode_compactEncode (n : Nat) (rest : List Nat) (h : n < 256 ^ 67) :
    compactDecode (compactEncode n ++ rest) = some (n, rest) := by
  unfold compactEncode
  by_cases h1 : n < 64
  · simp only [if_pos h1, List.cons_append, List.nil_append, compactDecode]
    have hmod : 4 * n % 4 = 0 := by omega
    rw [if_pos hmod]
    have : 4 * n / 4 = n := by omega
    rw [this]
  · by_cases h2 : n < 16384
    · simp only [if_neg h1, if_pos h2, List.cons_append, List.nil_append, compactDecode]
      have hm0 : (4 * n + 1) % 256 % 4 ≠ 0 := by omega
      have hm1 : (4 * n + 1) % 256 % 4 = 1 := by omega
      rw [if_neg hm0, if_pos hm1]
      simp only [compactDecodeTwo]
      have hw : (4 * n + 1) % 256 + 256 * ((4 * n + 1) / 256) = 4 * n + 1 := by omega
      rw [hw]
      have hv : (4 * n + 1) / 4 = n := by omega
      rw [if_pos (by omega), hv]
    · by_cases h3 : n < 1073741824
      · simp only [if_neg h1, if_neg h2, if_pos h3, List.cons_append, List.nil_append,
          compactDecode]
        have hm0 : (4 * n + 2) % 256 % 4 ≠ 0 := by omega
        have hm1 : (4 * n + 2) % 256 % 4 ≠ 1 := by omega
        have hm2 : (4 * n + 2) % 256 % 4 = 2 := by omega
        rw [if_neg hm0, if_neg hm1, if_pos hm2]
        simp only [compactDecodeFour]
        have hw : (4 * n + 2) % 256 + 256 * ((4 * n + 2) / 256 % 256) +
            65536 * ((4 * n + 2) / 65536 % 256) +
            16777216 * ((4 * n + 2) / 16777216 % 256) = 4 * n + 2 := by
          omega
        rw [hw]
        have hv : (4 * n + 2) / 4 = n := by omega
        rw [if_pos (by omega), hv]
      · simp only [if_neg h1, if_neg h2, if_neg h3, List.cons_append, compactDecode]
        set L := (toLEBytes n).length with hLdef
        have hge4 : 4 ≤ L := toLEBytes_length_ge 3 n (by omega)
        have hle67 : L ≤ 67 := toLEBytes_length_le 67 n h
        have hb0 : 4 * (L - 4) + 3 < 256 := by omega
        have hm0 : (4 * (L - 4) + 3) % 4 ≠ 0 := by omega
        have hm1 : (4 * (L - 4) + 3) % 4 ≠ 1 := by omega
        have hm2 : (4 * (L - 4) + 3) % 4 ≠ 2 := by omega
        rw [if_neg hm0, if_neg hm1, if_neg hm2]
        unfold compactDecodeBig
        have hlenEq : (4 * (L - 4) + 3) / 4 + 4 = L := by omega
        rw [hlenEq]
        have hlenOk : L ≤ (toLEBytes n ++ rest).length := by
          simp
        rw [if_pos hlenOk]
        have htake : (toLEBytes n ++ rest).take L = toLEBytes n := by
          rw [hLdef]
          exact List.take_left _ _
        have hdrop : (toLEBytes n ++ rest).drop L = rest := by
          rw [hLdef]
          exact List.drop_left _ _
        rw [htake, hdrop, fromLE_toLEBytes]
        have hminN : 256 ^ (L - 1) ≤ n := toLEBytes_min n (by omega)
        have hexp : (4 * (L - 4) + 3) / 4 + 3 = L - 1 := by omega
        rw [hexp]
        rw [if_pos ⟨by omega, hminN⟩]

/-- The compact decoder accepts only canonical encodings: any successful
decode came from the byte string the encoder would produce. -/
theorem compactDecode_canonical (bytes : List Nat) (n : Nat) (rest : List Nat)
    (hlt : ∀ b ∈ bytes, b < 256)
    (h : compactDecode bytes = some (n, rest)) :
    bytes = compactEncode n ++ rest := by
  match bytes with
  | [] => simp [compactDecode] at h
  | b0 :: tail =>
    have hb0 : b0 < 256 := hlt b0 (List.mem_cons_self _ _)
    simp only [compactDecode] at h
    by_cases hm0 : b0 % 4 = 0
    · rw [if_pos hm0] at h
      injection h with h'
      injection h' with hn hrest
      subst hn; subst hrest
      unfold compactEncode
      rw [if_pos (by omega)]
      have : 4 * (b0 / 4) = b0 := by omega
      simp [this]
    · rw [if_neg hm0] at h
      by_cases hm1 : b0 % 4 = 1
      · rw [if_pos hm1] at h
        match tail with
        | [] => simp [compactDecodeTwo] at h
        | b1 :: rest1 =>
          have hb1 : b1 < 256 := hlt b1 (by simp)
          simp only [compactDecodeTwo] at h
          by_cases hge : 64 ≤ (b0 + 256 * b1) / 4
          · rw [if_pos hge] at h
            injection h with h'
            injection h' with hn hrest
            subst hn; subst hrest
            unfold compactEncode
            rw [if_neg (by omega), if_pos (by omega)]
            have he1 : 4 * ((b0 + 256 * b1) / 4) + 1 = b0 + 256 * b1 := by omega
            rw [he1]
            have he2 : (b0 + 256 * b1) % 256 = b0 := by omega
            have he3 : (b0 + 256 * b1) / 256 = b1 := by omega
            simp [he2, he3]
          · rw [if_neg hge] at h; exact absurd h (by simp)
      · rw [if_neg hm1] at h
        by_cases hm2 : b0 % 4 = 2
        · rw [if_pos hm2] at h
          match tail with
          | [] => simp [compactDecodeFour] at h
          | [b1] => simp [compactDecodeFour] at h
          | [b1, b2] => simp [compactDecodeFour] at h
          | b1 :: b2 :: b3 :: rest3 =>
            have hb1 : b1 < 256 := hlt b1 (by simp)
            have hb2 : b2 < 256 := hlt b2 (by simp)
            have hb3 : b3 < 256 := hlt b3 (by simp)
            simp only [compactDecodeFour] at h
            by_cases hge : 16384 ≤ (b0 + 256 * b1 + 65536 * b2 + 16777216 * b3) / 4
            · rw [if_pos hge] at h
              injection h with h'
              injection h' with hn hrest
              subst hn; subst hrest
              unfold compactEncode
              set w := b0 + 256 * b1 + 65536 * b2 + 16777216 * b3 with hwdef
              rw [if_neg (by omega), if_neg (by omega), if_pos (by omega)]
              have he1 : 4 * (w / 4) + 2 = w := by omega
              rw [he1]
              have he2 : w % 256 = b0 := by omega
              have he3 : w / 256 % 256 = b1 := by omega
              have he4 : w / 65536 % 256 = b2 := by omega
              have he5 : w / 16777216 % 256 = b3 := by omega
              simp [he2, he3, he4, he5]
            · rw [if_neg hge] at h; exact absurd h (by simp)
        · rw [if_neg hm2] at h
          have hm3 : b0 % 4 = 3 := by omega
          unfold compactDecodeBig at h
          by_cases hlen : b0 / 4 + 4 ≤ tail.length
          · rw [if_pos hlen] at h
            by_cases hcan : 1073741824 ≤ fromLE (tail.take (b0 / 4 + 4)) ∧
                256 ^ (b0 / 4 + 3) ≤ fromLE (tail.take (b0 / 4 + 4))
            · rw [if_pos hcan] at h
              injection h with h'
              injection h' with hn hrest
              subst hn; subst hrest
              unfold compactEncode
              rw [if_neg (by omega), if_neg (by omega), if_neg (by omega)]
              set chunk := tail.take (b0 / 4 + 4) with hchunk
              have hchlen : chunk.length = b0 / 4 + 4 := by
                rw [hchunk, List.length_take]
                omega
              have hchlt : ∀ b ∈ chunk, b < 256 := by
                intro b hb
                exact hlt b (List.mem_cons_of_mem _ (List.mem_of_mem_take hb))
              have hchne : chunk ≠ [] := by
                intro hz
                rw [hz] at hchlen
                simp at hchlen
              have hchmin : 256 ^ (chunk.length - 1) ≤ fromLE chunk := by
                rw [hchlen]
                have : b0 / 4 + 4 - 1 = b0 / 4 + 3 := by omega
                rw [this]
                exact hcan.2
              have hto : toLEBytes (fromLE chunk) = chunk :=
                toLEBytes_fromLE chunk hchlt hchne hchmin
              rw [hto, hchlen]
              have he1 : 4 * (b0 / 4 + 4 - 4) + 3 = b0 := by omega
              rw [he1]
              simp [hchunk]
            · rw [if_neg hcan] at h; exact absurd h (by simp)
          · rw [if_neg hlen] at h; exact absurd h (by simp)

/-! ### Payload shapes of `frame/contracts.rs`

The structs below mirror the declared fields of the source module.  `Hash`,
`Address` and `AccountId` are 32-byte quantities, `Balance` a `u128`, `Gas` a
`u64`; integers are modelled as `Nat` with the width bound carried as a
hypothesis where a theorem needs it. -/

/-- `PutCodeCall` from the source: a single Wasm blob field `code: &[u8]`. -/
structure PutCodeCall where
  code : List Nat
deriving DecidableEq

/-- `InstantiateCall` from the source: `#[codec(compact)] endowment`,
`#[codec(compact)] gas_limit`, `code_hash`, `data`. -/
structure InstantiateCall where
  endowment : Nat
  gas_limit : Nat
  code_hash : List Nat
  data : List Nat
deriving DecidableEq

/-- `CallCall` from the source: `dest`, `value` (no compact annotation),
`#[codec(compact)] gas_limit`, `data`. -/
structure CallCall where
  dest : List Nat
  value : Nat
  gas_limit : Nat
  data : List Nat
deriving DecidableEq

/-- `CodeStoredEvent` from the source: a single `code_hash` field. -/
structure CodeStoredEvent where
  code_hash : List Nat
deriving DecidableEq

/-- `InstantiatedEvent` from the source: a pair of `AccountId`s. -/
structure InstantiatedEvent where
  creator : List Nat
  contract : List Nat
deriving DecidableEq

/-- The encoding form a struct field contributes to the wire body, as
declared per field in the source: a length-prefixed byte sequence, a
`#[codec(compact)]` integer, a fixed-width `u128`, or raw fixed-size bytes
of a declared width. -/
inductive FieldVal where
  | bytes : List Nat → FieldVal
  | compactInt : Nat → FieldVal
  | fixedU128 : Nat → FieldVal
  | fixedRaw : Nat → List Nat → FieldVal
deriving DecidableEq

/-- Modelled from the spec: the per-field encoder of the derived `Encode`
implementations; byte sequences are length-prefixed with a compact integer. -/
def encodeField : FieldVal → List Nat
  | .bytes b => compactEncode b.length ++ b
  | .compactInt n => compactEncode n
  | .fixedU128 n => fixedLE 16 n
  | .fixedRaw _ b => b

/-- Modelled from the spec: the checked per-field encoder, whose `none`
branch is the `EncodingError` of a value that cannot satisfy its declared
shape (an oversized integer for a fixed-width slot, or a raw field of the
wrong width). -/
def encodeFieldChecked : FieldVal → Option (List Nat)
  | .bytes b => some (compactEncode b.length ++ b)
  | .compactInt n => some (compactEncode n)
  | .fixedU128 n => if n < 256 ^ 16 then some (fixedLE 16 n) else none
  | .fixedRaw w b => if b.length = w then some b else none

/-- Concatenation of field encodings in declared order. -/
def encodeFields : List FieldVal → List Nat
  | [] => []
  | f :: fs => encodeField f ++ encodeFields fs

/-- Checked concatenation of field encodings in declared order. -/
def encodeFieldsChecked : List FieldVal → Option (List Nat)
  | [] => some []
  | f :: fs =>
    match encodeFieldChecked f, encodeFieldsChecked fs with
    | some b, some bs => some (b ++ bs)
    | _, _ => none

/-- The declared field list of `PutCodeCall`, in source order. -/
def PutCodeCall.fields (c : PutCodeCall) : List FieldVal :=
  [.bytes c.code]

/-- The declared field list of `InstantiateCall`, in source order. -/
def InstantiateCall.fields (c : InstantiateCall) : List FieldVal :=
  [.compactInt c.endowment, .compactInt c.gas_limit,
   .fixedRaw 32 c.code_hash, .bytes c.data]

/-- The declared field list of `CallCall`, in source order. -/
def CallCall.fields (c : CallCall) : List FieldVal :=
  [.fixedRaw 32 c.dest, .fixedU128 c.value, .compactInt c.gas_limit, .bytes c.data]

/-- Derived `Encode` of `PutCodeCall`. -/
def PutCodeCall.encode (c : PutCodeCall) : List Nat :=
  encodeFields c.fields

/-- Derived `Encode` of `InstantiateCall`. -/
def InstantiateCall.encode (c : InstantiateCall) : List Nat :=
  encodeFields c.fields

/-- Derived `Encode` of `CallCall`. -/
def CallCall.encode (c : CallCall) : List Nat :=
  encodeFields c.fields

/-- Encoding of `CodeStoredEvent` (the direction opposite its derived
`Decode`), used to state the round-trip property. -/
def CodeStoredEvent.encode (e : CodeStoredEvent) : List Nat :=
  e.code_hash

/-- Encoding of `InstantiatedEvent`. -/
def InstantiatedEvent.encode (e : InstantiatedEvent) : List Nat :=
  e.creator ++ e.contract

/-- Modelled from the spec: decoder for `PutCodeCall` (compact length prefix
followed by that many bytes). -/
def PutCodeCall.decode (bs : List Nat) : Option (PutCodeCall × List Nat) :=
  match compactDecode bs with
  | none => none
  | some (len, bs1) =>
    if len ≤ bs1.length then some (⟨bs1.take len⟩, bs1.drop len) else none

/-- Modelled from the spec: decoder for `InstantiateCall`. -/
def InstantiateCall.decode (bs : List Nat) : Option (InstantiateCall × List Nat) :=
  match compactDecode bs with
  | none => none
  | some (e, bs1) =>
    match compactDecode bs1 with
    | none => none
    | some (g, bs2) =>
      if 32 ≤ bs2.length then
        match compactDecode (bs2.drop 32) with
        | none => none
        | some (dl, bs3) =>
          if dl ≤ bs3.length then
            some (⟨e, g, bs2.take 32, bs3.take dl⟩, bs3.drop dl)
          else none
      else none

/-- Modelled from the spec: decoder for `CallCall`. -/
def CallCall.decode (bs : List Nat) : Option (CallCall × List Nat) :=
  if 32 ≤ bs.length then
    if 16 ≤ (bs.drop 32).length then
      match compactDecode ((bs.drop 32).drop 16) with
      | none => none
      | some (g, bs3) =>
        match compactDecode bs3 with
        | none => none
        | some (dl, bs4) =>
          if dl ≤ bs4.length then
            some (⟨bs.take 32, fromLE ((bs.drop 32).take 16), g, bs4.take dl⟩,
              bs4.drop dl)
          else none
    else none
  else none

/-- Derived `Decode` of `CodeStoredEvent`: a fixed 32-byte hash; fewer bytes
than the shape requires is a decode failure, never a partial value. -/
def CodeStoredEvent.decode (bs : List Nat) : Option (CodeStoredEvent × List Nat) :=
  if 32 ≤ bs.length then some (⟨bs.take 32⟩, bs.drop 32) else none

/-- Derived `Decode` of `InstantiatedEvent`: two fixed 32-byte account ids. -/
def InstantiatedEvent.decode (bs : List Nat) : Option (InstantiatedEvent × List Nat) :=
  if 64 ≤ bs.length then
    some (⟨bs.take 32, (bs.drop 32).take 32⟩, bs.drop 64)
  else none

/-! ### Round-trip lemmas for the payload shapes -/

theorem putCodeCall_decode_encode (c : PutCodeCall) (rest : List Nat)
    (h : c.code.length < 256 ^ 67) :
    PutCodeCall.decode (c.encode ++ rest) = some (c, rest) := by
  have henc : c.encode ++ rest = compactEncode c.code.length ++ (c.code ++ rest) := by
    simp [PutCodeCall.encode, PutCodeCall.fields, encodeFields, encodeField]
  rw [henc]
  unfold PutCodeCall.decode
  rw [compactDecode_compactEncode _ _ h]
  dsimp only
  have hle : c.code.length ≤ (c.code ++ rest).length := by simp
  rw [if_pos hle, List.take_left, List.drop_left]

theorem instantiateCall_decode_encode (c : InstantiateCall) (rest : List Nat)
    (he : c.endowment < 256 ^ 67) (hg : c.gas_limit < 256 ^ 67)
    (hh : c.code_hash.length = 32) (hd : c.data.length < 256 ^ 67) :
    InstantiateCall.decode (c.encode ++ rest) = some (c, rest) := by
  have henc : c.encode ++ rest = compactEncode c.endowment ++
      (compactEncode c.gas_limit ++
        (c.code_hash ++ (compactEncode c.data.length ++ (c.data ++ rest)))) := by
    simp [InstantiateCall.encode, InstantiateCall.fields, encodeFields, encodeField]
  rw [henc]
  unfold InstantiateCall.decode
  rw [compactDecode_compactEncode _ _ he]
  dsimp only
  rw [compactDecode_compactEncode _ _ hg]
  dsimp only
  have h32 : 32 ≤ (c.code_hash ++ (compactEncode c.data.length ++ (c.data ++ rest))).length := by
    simp [hh]
  rw [if_pos h32, List.drop_left' hh, compactDecode_compactEncode _ _ hd]
  dsimp only
  have hdl : c.data.length ≤ (c.data ++ rest).length := by simp
  rw [if_pos hdl, List.take_left' hh, List.take_left, List.drop_left]

theorem callCall_decode_encode (c : CallCall) (rest : List Nat)
    (hdest : c.dest.length = 32) (hv : c.value < 256 ^ 16)
    (hg : c.gas_limit < 256 ^ 67) (hd : c.data.length < 256 ^ 67) :
    CallCall.decode (c.encode ++ rest) = some (c, rest) := by
  have henc : c.encode ++ rest = c.dest ++
      (fixedLE 16 c.value ++
        (compactEncode c.gas_limit ++ (compactEncode c.data.length ++ (c.data ++ rest)))) := by
    simp [CallCall.encode, CallCall.fields, encodeFields, encodeField]
  rw [henc]
  unfold CallCall.decode
  have h32 : 32 ≤ (c.dest ++
      (fixedLE 16 c.value ++
        (compactEncode c.gas_limit ++ (compactEncode c.data.length ++ (c.data ++ rest))))).length := by
    simp [hdest]
  rw [if_pos h32, List.drop_left' hdest, List.take_left' hdest]
  have hfl : (fixedLE 16 c.value).length = 16 := fixedLE_length 16 c.value
  have h16 : 16 ≤ (fixedLE 16 c.value ++
      (compactEncode c.gas_limit ++ (compactEncode c.data.length ++ (c.data ++ rest)))).length := by
    simp [hfl]
  rw [if_pos h16, List.drop_left' hfl, List.take_left' hfl]
  rw [compactDecode_compactEncode _ _ hg]
  dsimp only
  rw [compactDecode_compactEncode _ _ hd]
  dsimp only
  have hdl : c.data.length ≤ (c.data ++ rest).length := by simp
  rw [if_pos hdl, List.take_left, List.drop_left, fromLE_fixedLE 16 c.value hv]

theorem codeStoredEvent_decode_encode (e : CodeStoredEvent) (rest : List Nat)
    (h : e.code_hash.length = 32) :
    CodeStoredEvent.decode (e.encode ++ rest) = some (e, rest) := by
  unfold CodeStoredEvent.decode CodeStoredEvent.encode
  have h32 : 32 ≤ (e.code_hash ++ rest).length := by simp [h]
  rw [if_pos h32, List.take_left' h, List.drop_left' h]

theorem instantiatedEvent_decode_encode (e : InstantiatedEvent) (rest : List Nat)
    (h1 : e.creator.length = 32) (h2 : e.contract.length = 32) :
    InstantiatedEvent.decode (e.encode ++ rest) = some (e, rest) := by
  unfold InstantiatedEvent.decode InstantiatedEvent.encode
  have hlen : 64 ≤ (e.creator ++ e.contract ++ rest).length := by
    simp [h1, h2]
    omega
  rw [if_pos hlen]
  have hassoc : e.creator ++ e.contract ++ rest = e.creator ++ (e.contract ++ rest) := by
    simp
  rw [hassoc, List.take_left' h1, List.drop_left' h1, List.take_left' h2]
  have h64 : e.creator ++ (e.contract ++ rest) = (e.creator ++ e.contract) ++ rest := by
    simp
  rw [h64, List.drop_left' (by simp [h1, h2])]

/-! ### Event extraction

The `find_event` operation of the submission pipeline lives outside the
sampled source file; it is modelled from the spec. -/

/-- A decoded runtime record from a block's event log: a (module, event-name)
identity together with the entry's opaque payload bytes. -/
structure RawEvent where
  module : String
  event : String
  bytes : List Nat
deriving DecidableEq

/-- The outcome of one extraction call: the decoded value of the first
matching entry, `notFound` after a full scan without an identity match, or
`decodeError` when a matched entry's bytes do not satisfy the shape. -/
inductive ExtractResult (α : Type) where
  | found : α → ExtractResult α
  | notFound : ExtractResult α
  | decodeError : ExtractResult α
deriving DecidableEq

/-- Modelled from the spec: `find_event` scans the ordered event log, decodes
the first entry whose (module, event-name) identity matches the requested
descriptor, returns `notFound` when the full log has no match, and
`decodeError` when a matched entry fails its decoder. -/
def find_event {α : Type} (dec : List Nat → Option (α × List Nat))
    (mod ev : String) : List RawEvent → ExtractResult α
  | [] => .notFound
  | e :: rest =>
    if e.module = mod ∧ e.event = ev then
      match dec e.bytes with
      | some (v, _) => .found v
      | none => .decodeError
    else find_event dec mod ev rest

/-! ### Call descriptor and signed-extrinsic envelope

Both live outside the sampled source file; modelled from the spec. -/

/-- Modelled from the spec: the Call Descriptor's wire body — the module
index, the function index, then the codec-encoded payload fields. -/
def encodeCall (moduleIndex functionIndex : Nat) (payload : List Nat) : List Nat :=
  [moduleIndex, functionIndex] ++ payload

/-- Modelled from the spec: the `[version-byte][signed-flag][if signed:
address || signature || extra]` head of the wire envelope. -/
def envelopeHead (version : Nat)
    (sig : Option (List Nat × List Nat × List Nat)) : List Nat :=
  [version] ++ (match sig with
    | some (addr, s, extra) => [1] ++ addr ++ s ++ extra
    | none => [0])

/-- Modelled from the spec: the SignedExtrinsic envelope, the envelope head
followed by exactly the Call Descriptor's bytes. -/
def signedExtrinsic (version : Nat)
    (sig : Option (List Nat × List Nat × List Nat)) (callBytes : List Nat) : List Nat :=
  envelopeHead version sig ++ callBytes

/-! ### Module identity constants, as declared in the source -/

/-- `const MODULE: &str = "Contracts"` from the source. -/
def MODULE : String := "Contracts"

/-- `Call` impl for `PutCodeCall`: `MODULE`. -/
def PutCodeCall.MODULE : String := Subxt.MODULE

/-- `Call` impl for `PutCodeCall`: `FUNCTION`. -/
def PutCodeCall.FUNCTION : String := "put_code"

/-- `Call` impl for `InstantiateCall`: `MODULE`. -/
def InstantiateCall.MODULE : String := Subxt.MODULE

/-- `Call` impl for `InstantiateCall`: `FUNCTION`. -/
def InstantiateCall.FUNCTION : String := "instantiate"

/-- `Call` impl for `CallCall`: `MODULE`. -/
def CallCall.MODULE : String := Subxt.MODULE

/-- `Call` impl for `CallCall`: `FUNCTION`. -/
def CallCall.FUNCTION : String := "call"

/-- `Event` impl for `CodeStoredEvent`: `MODULE`. -/
def CodeStoredEvent.MODULE : String := Subxt.MODULE

/-- `Event` impl for `CodeStoredEvent`: `EVENT`. -/
def CodeStoredEvent.EVENT : String := "CodeStored"

/-- `Event` impl for `InstantiatedEvent`: `MODULE`. -/
def InstantiatedEvent.MODULE : String := Subxt.MODULE

/-- `Event` impl for `InstantiatedEvent`: `EVENT`. -/
def InstantiatedEvent.EVENT : String := "Instantiated"

/-! ### Shared lemmas about event extraction -/

/-- Entries whose identity does not match are skipped without effect. -/
theorem find_event_skip {α : Type} (dec : List Nat → Option (α × List Nat))
    (mod ev : String) (pre log : List RawEvent)
    (hpre : ∀ x ∈ pre, ¬(x.module = mod ∧ x.event = ev)) :
    find_event dec mod ev (pre ++ log) = find_event dec mod ev log := by
  induction pre with
  | nil => rfl
  | cons x xs ih =>
    simp only [List.cons_append, find_event]
    rw [if_neg (hpre x (List.mem_cons_self _ _))]
    exact ih (fun y hy => hpre y (List.mem_cons_of_mem _ hy))

/-- A full scan with no identity match returns `notFound`. -/
theorem find_event_no_match {α : Type} (dec : List Nat → Option (α × List Nat))
    (mod ev : String) (log : List RawEvent)
    (hlog : ∀ x ∈ log, ¬(x.module = mod ∧ x.event = ev)) :
    find_event dec mod ev log = .notFound := by
  induction log with
  | nil => rfl
  | cons x xs ih =>
    simp only [find_event]
    rw [if_neg (hlog x (List.mem_cons_self _ _))]
    exact ih (fun y hy => hlog y (List.mem_cons_of_mem _ hy))

/-! ### The claims -/

/-- C1: for every value of a supported payload shape — the Encode-derived
call payloads (`PutCodeCall`, `InstantiateCall`, `CallCall`) and the
Decode-derived event payloads (`CodeStoredEvent`, `InstantiatedEvent`) of
this module — decoding the bytes produced by encoding the value yields the
value again with no bytes left over. The hypotheses are the Rust type
invariants: lengths fit `usize`, `value` fits `u128`, hashes and account ids
are 32 bytes. -/
theorem claim_C1_roundtrip
    (pc : PutCodeCall) (ic : InstantiateCall) (cc : CallCall)
    (cs : CodeStoredEvent) (ie : InstantiatedEvent)
    (hpc : pc.code.length < 256 ^ 67)
    (hie : ic.endowment < 256 ^ 67) (hig : ic.gas_limit < 256 ^ 67)
    (hih : ic.code_hash.length = 32) (hid : ic.data.length < 256 ^ 67)
    (hcd : cc.dest.length = 32) (hcv : cc.value < 256 ^ 16)
    (hcg : cc.gas_limit < 256 ^ 67) (hcdata : cc.data.length < 256 ^ 67)
    (hcs : cs.code_hash.length = 32)
    (hic : ie.creator.length = 32) (hico : ie.contract.length = 32) :
    PutCodeCall.decode pc.encode = some (pc, []) ∧
    InstantiateCall.decode ic.encode = some (ic, []) ∧
    CallCall.decode cc.encode = some (cc, []) ∧
    CodeStoredEvent.decode cs.encode = some (cs, []) ∧
    InstantiatedEvent.decode ie.encode = some (ie, []) := by
  refine ⟨?_, ?_, ?_, ?_, ?_⟩
  · have := putCodeCall_decode_encode pc [] hpc
    rwa [List.append_nil] at this
  · have := instantiateCall_decode_encode ic [] hie hig hih hid
    rwa [List.append_nil] at this
  · have := callCall_decode_encode cc [] hcd hcv hcg hcdata
    rwa [List.append_nil] at this
  · have := codeStoredEvent_decode_encode cs [] hcs
    rwa [List.append_nil] at this
  · have := instantiatedEvent_decode_encode ie [] hic hico
    rwa [List.append_nil] at this

theorem claim_C1_roundtrip_witness :
    PutCodeCall.decode (PutCodeCall.encode ⟨[1, 2, 3]⟩) = some (⟨[1, 2, 3]⟩, []) ∧
    InstantiateCall.decode (InstantiateCall.encode
      ⟨100000000000000, 500000000, List.replicate 32 7, []⟩) =
      some (⟨100000000000000, 500000000, List.replicate 32 7, []⟩, []) ∧
    CallCall.decode (CallCall.encode ⟨List.replicate 32 9, 12345, 500000000, [1]⟩) =
      some (⟨List.replicate 32 9, 12345, 500000000, [1]⟩, []) ∧
    CodeStoredEvent.decode (CodeStoredEvent.encode ⟨List.replicate 32 5⟩) =
      some (⟨List.replicate 32 5⟩, []) ∧
    InstantiatedEvent.decode (InstantiatedEvent.encode
      ⟨List.replicate 32 1, List.replicate 32 2⟩) =
      some (⟨List.replicate 32 1, List.replicate 32 2⟩, []) :=
  claim_C1_roundtrip ⟨[1, 2, 3]⟩
    ⟨100000000000000, 500000000, List.replicate 32 7, []⟩
    ⟨List.replicate 32 9, 12345, 500000000, [1]⟩
    ⟨List.replicate 32 5⟩ ⟨List.replicate 32 1, List.replicate 32 2⟩
    (by norm_num) (by norm_num) (by norm_num) (by decide) (by norm_num)
    (by decide) (by norm_num) (by norm_num) (by norm_num) (by decide)
    (by decide) (by decide)

/-- C2: the compact integer encoding used by `#[codec(compact)]` fields.
Every value below `2 ^ 6` encodes to exactly one byte; every value encodes to
the minimal byte-width representation among the 1/2/4/8+-byte forms (one byte
below `2 ^ 6`, two below `2 ^ 14`, four below `2 ^ 30`, else one mode byte
plus the value's minimal little-endian bytes); and any successful decode
consumed exactly the canonical encoding, so every non-minimal representation
is rejected as malformed. -/
theorem claim_C2_compact (n : Nat) (bytes : List Nat) (v : Nat) (rest : List Nat)
    (hbytes : ∀ b ∈ bytes, b < 256)
    (hdec : compactDecode bytes = some (v, rest)) :
    (n < 64 → (compactEncode n).length = 1) ∧
    (compactEncode n).length = (if n < 64 then 1 else if n < 16384 then 2
      else if n < 1073741824 then 4 else (toLEBytes n).length + 1) ∧
    bytes = compactEncode v ++ rest := by
  refine ⟨?_, ?_, compactDecode_canonical bytes v rest hbytes hdec⟩
  · intro h64
    simp [compactEncode, h64]
  · unfold compactEncode
    by_cases h1 : n < 64
    · simp [h1]
    · by_cases h2 : n < 16384
      · simp [h1, h2]
      · by_cases h3 : n < 1073741824
        · simp [h1, h2, h3]
        · simp [h1, h2, h3]

theorem claim_C2_compact_witness :
    ((5 : Nat) < 64 → (compactEncode 5).length = 1) ∧
    (compactEncode 5).length = (if (5 : Nat) < 64 then 1 else if (5 : Nat) < 16384 then 2
      else if (5 : Nat) < 1073741824 then 4 else (toLEBytes 5).length + 1) ∧
    [1, 1] = compactEncode 64 ++ [] :=
  claim_C2_compact 5 [1, 1] 64 [] (by decide) (by decide)

/-- C3: `find_event` returns the decoded value of the first log entry whose
(module, event-name) identity matches, in emission order, regardless of how
many non-matching entries precede it and of what follows it (so
duplicate-identity entries all resolve to the same first match); a full scan
with no identity match returns `notFound`. -/
theorem claim_C3_first_match {α : Type} (dec : List Nat → Option (α × List Nat))
    (mod ev : String) (pre post log : List RawEvent) (e : RawEvent)
    (v : α) (extra : List Nat)
    (hpre : ∀ x ∈ pre, ¬(x.module = mod ∧ x.event = ev)) :
    (find_event dec mod ev (pre ++ log) = find_event dec mod ev log) ∧
    ((∀ x ∈ log, ¬(x.module = mod ∧ x.event = ev)) →
      find_event dec mod ev log = .notFound) ∧
    (e.module = mod → e.event = ev → dec e.bytes = some (v, extra) →
      find_event dec mod ev (pre ++ e :: post) = .found v) := by
  refine ⟨find_event_skip dec mod ev pre log hpre,
    find_event_no_match dec mod ev log, ?_⟩
  intro hm he hdec
  rw [find_event_skip dec mod ev pre (e :: post) hpre]
  simp only [find_event]
  rw [if_pos ⟨hm, he⟩, hdec]

theorem claim_C3_first_match_witness :
    (find_event CodeStoredEvent.decode "Contracts" "CodeStored"
      ([⟨"Balances", "Transfer", [0]⟩] ++
        [⟨"Contracts", "CodeStored", List.replicate 32 5⟩]) =
      find_event CodeStoredEvent.decode "Contracts" "CodeStored"
        [⟨"Contracts", "CodeStored", List.replicate 32 5⟩]) ∧
    ((∀ x ∈ [(⟨"Contracts", "CodeStored", List.replicate 32 5⟩ : RawEvent)],
        ¬(x.module = "Contracts" ∧ x.event = "CodeStored")) →
      find_event CodeStoredEvent.decode "Contracts" "CodeStored"
        [⟨"Contracts", "CodeStored", List.replicate 32 5⟩] = .notFound) ∧
    ((⟨"Contracts", "CodeStored", List.replicate 32 5⟩ : RawEvent).module = "Contracts" →
      (⟨"Contracts", "CodeStored", List.replicate 32 5⟩ : RawEvent).event = "CodeStored" →
      CodeStoredEvent.decode
        (⟨"Contracts", "CodeStored", List.replicate 32 5⟩ : RawEvent).bytes =
        some (⟨List.replicate 32 5⟩, []) →
      find_event CodeStoredEvent.decode "Contracts" "CodeStored"
        ([⟨"Balances", "Transfer", [0]⟩] ++
          ⟨"Contracts", "CodeStored", List.replicate 32 5⟩ ::
            [⟨"Contracts", "CodeStored", List.replicate 32 6⟩]) =
        .found ⟨List.replicate 32 5⟩) :=
  claim_C3_first_match CodeStoredEvent.decode "Contracts" "CodeStored"
    [⟨"Balances", "Transfer", [0]⟩]
    [⟨"Contracts", "CodeStored", List.replicate 32 6⟩]
    [⟨"Contracts", "CodeStored", List.replicate 32 5⟩]
    ⟨"Contracts", "CodeStored", List.replicate 32 5⟩
    ⟨List.replicate 32 5⟩ [] (by decide)

/-- C4: when a log entry's identity matches the requested descriptor but its
bytes do not satisfy the shape (here: fewer than the 32 bytes a
`CodeStoredEvent` needs), extraction returns `decodeError`, which is distinct
from `notFound` and from every `found` value, so no partially-populated value
is ever returned. -/
theorem claim_C4_decode_error (pre post : List RawEvent) (e : RawEvent)
    (hpre : ∀ x ∈ pre,
      ¬(x.module = CodeStoredEvent.MODULE ∧ x.event = CodeStoredEvent.EVENT))
    (hm : e.module = CodeStoredEvent.MODULE) (he : e.event = CodeStoredEvent.EVENT)
    (hlen : e.bytes.length < 32) :
    find_event CodeStoredEvent.decode CodeStoredEvent.MODULE CodeStoredEvent.EVENT
      (pre ++ e :: post) = .decodeError ∧
    (∀ v : CodeStoredEvent,
      (ExtractResult.decodeError : ExtractResult CodeStoredEvent) ≠ .found v) ∧
    (ExtractResult.decodeError : ExtractResult CodeStoredEvent) ≠ .notFound := by
  refine ⟨?_, ?_, ?_⟩
  · rw [find_event_skip _ _ _ pre (e :: post) hpre]
    simp only [find_event]
    rw [if_pos ⟨hm, he⟩]
    have hdec : CodeStoredEvent.decode e.bytes = none := by
      unfold CodeStoredEvent.decode
      rw [if_neg (by omega)]
    rw [hdec]
  · intro v h
    cases h
  · intro h
    cases h

theorem claim_C4_decode_error_witness :
    find_event CodeStoredEvent.decode CodeStoredEvent.MODULE CodeStoredEvent.EVENT
      ([⟨"Balances", "Transfer", [0]⟩] ++
        ⟨"Contracts", "CodeStored", [1, 2, 3]⟩ :: []) = .decodeError ∧
    (∀ v : CodeStoredEvent,
      (ExtractResult.decodeError : ExtractResult CodeStoredEvent) ≠ .found v) ∧
    (ExtractResult.decodeError : ExtractResult CodeStoredEvent) ≠ .notFound :=
  claim_C4_decode_error [⟨"Balances", "Transfer", [0]⟩] []
    ⟨"Contracts", "CodeStored", [1, 2, 3]⟩
    (by decide) (by decide) (by decide) (by decide)

/-- C5: for every call payload, the Call Descriptor's wire body encodes the
payload fields in exactly their declared struct order, `#[codec(compact)]`
fields (`endowment`, `gas_limit`) in the compact integer form and every other
field in fixed-width/raw form (byte slices length-prefixed with a compact
integer). -/
theorem claim_C5_declared_order (pc : PutCodeCall) (ic : InstantiateCall)
    (cc : CallCall) (mi fi : Nat) :
    encodeCall mi fi pc.encode =
      [mi, fi] ++ (compactEncode pc.code.length ++ pc.code) ∧
    encodeCall mi fi ic.encode =
      [mi, fi] ++ (compactEncode ic.endowment ++ compactEncode ic.gas_limit ++
        ic.code_hash ++ (compactEncode ic.data.length ++ ic.data)) ∧
    encodeCall mi fi cc.encode =
      [mi, fi] ++ (cc.dest ++ fixedLE 16 cc.value ++ compactEncode cc.gas_limit ++
        (compactEncode cc.data.length ++ cc.data)) := by
  refine ⟨?_, ?_, ?_⟩
  · simp [encodeCall, PutCodeCall.encode, PutCodeCall.fields, encodeFields, encodeField]
  · simp [encodeCall, InstantiateCall.encode, InstantiateCall.fields, encodeFields,
      encodeField]
  · simp [encodeCall, CallCall.encode, CallCall.fields, encodeFields, encodeField]

/-- C6: call encoding is deterministic — there is no hidden state, so
encoding equal payloads under the same (module, function) identity yields
byte-for-byte identical output. -/
theorem claim_C6_determinism (mi fi : Nat) (p q : PutCodeCall)
    (ic ic' : InstantiateCall) (cc cc' : CallCall)
    (h1 : p = q) (h2 : ic = ic') (h3 : cc = cc') :
    encodeCall mi fi p.encode = encodeCall mi fi q.encode ∧
    encodeCall mi fi ic.encode = encodeCall mi fi ic'.encode ∧
    encodeCall mi fi cc.encode = encodeCall mi fi cc'.encode := by
  subst h1; subst h2; subst h3
  exact ⟨rfl, rfl, rfl⟩

theorem claim_C6_determinism_witness :
    encodeCall 6 0 (PutCodeCall.encode ⟨[9]⟩) =
      encodeCall 6 0 (PutCodeCall.encode ⟨[9]⟩) ∧
    encodeCall 6 0 (InstantiateCall.encode ⟨7, 8, List.replicate 32 0, [1]⟩) =
      encodeCall 6 0 (InstantiateCall.encode ⟨7, 8, List.replicate 32 0, [1]⟩) ∧
    encodeCall 6 0 (CallCall.encode ⟨List.replicate 32 0, 7, 8, [1]⟩) =
      encodeCall 6 0 (CallCall.encode ⟨List.replicate 32 0, 7, 8, [1]⟩) :=
  claim_C6_determinism 6 0 ⟨[9]⟩ ⟨[9]⟩
    ⟨7, 8, List.replicate 32 0, [1]⟩ ⟨7, 8, List.replicate 32 0, [1]⟩
    ⟨List.replicate 32 0, 7, 8, [1]⟩ ⟨List.replicate 32 0, 7, 8, [1]⟩
    rfl rfl rfl

/-- C7: every Call and Event type carries its identity as static constants
(`MODULE` plus `FUNCTION` or `EVENT`), every `MODULE` is `"Contracts"`, and
the five (module-name, member-name) pairs of the Contracts module are
pairwise distinct, so each identity pair names exactly one payload shape. -/
theorem claim_C7_identity :
    PutCodeCall.MODULE = "Contracts" ∧ PutCodeCall.FUNCTION = "put_code" ∧
    InstantiateCall.MODULE = "Contracts" ∧ InstantiateCall.FUNCTION = "instantiate" ∧
    CallCall.MODULE = "Contracts" ∧ CallCall.FUNCTION = "call" ∧
    CodeStoredEvent.MODULE = "Contracts" ∧ CodeStoredEvent.EVENT = "CodeStored" ∧
    InstantiatedEvent.MODULE = "Contracts" ∧ InstantiatedEvent.EVENT = "Instantiated" ∧
    ([(PutCodeCall.MODULE, PutCodeCall.FUNCTION),
      (InstantiateCall.MODULE, InstantiateCall.FUNCTION),
      (CallCall.MODULE, CallCall.FUNCTION),
      (CodeStoredEvent.MODULE, CodeStoredEvent.EVENT),
      (InstantiatedEvent.MODULE, InstantiatedEvent.EVENT)] :
        List (String × String)).Nodup := by
  refine ⟨rfl, rfl, rfl, rfl, rfl, rfl, rfl, rfl, rfl, rfl, ?_⟩
  decide

/-- C8: the SignedExtrinsic envelope is exactly
`[version-byte][signed-flag][if signed: address || signature || extra][call-bytes]`,
and its call-bytes segment is byte-for-byte the Call Descriptor's encoding of
the submitted call (shown here for a submitted `PutCodeCall`). -/
theorem claim_C8_envelope (version mi fi : Nat) (addr sg extra callBytes : List Nat)
    (c : PutCodeCall) :
    signedExtrinsic version (some (addr, sg, extra)) callBytes =
      [version] ++ [1] ++ (addr ++ sg ++ extra) ++ callBytes ∧
    signedExtrinsic version none callBytes = [version] ++ [0] ++ callBytes ∧
    (signedExtrinsic version (some (addr, sg, extra))
        (encodeCall mi fi c.encode)).drop
        (envelopeHead version (some (addr, sg, extra))).length =
      encodeCall mi fi c.encode := by
  refine ⟨?_, ?_, ?_⟩
  · simp [signedExtrinsic, envelopeHead]
  · simp [signedExtrinsic, envelopeHead]
  · unfold signedExtrinsic
    exact List.drop_left _ _

/-- C9: encoding the concrete call payloads of this module is total and
infallible — for every payload whose fields satisfy their declared Rust types
(32-byte hash and address, `u128` value), the checked encoder that reports
`EncodingError` as `none` returns exactly the unchecked encoding, so the
error branch is unreachable. -/
theorem claim_C9_encode_total (pc : PutCodeCall) (ic : InstantiateCall)
    (cc : CallCall) (hih : ic.code_hash.length = 32)
    (hcd : cc.dest.length = 32) (hcv : cc.value < 256 ^ 16) :
    encodeFieldsChecked pc.fields = some pc.encode ∧
    encodeFieldsChecked ic.fields = some ic.encode ∧
    encodeFieldsChecked cc.fields = some cc.encode := by
  refine ⟨?_, ?_, ?_⟩
  · simp [PutCodeCall.fields, PutCodeCall.encode, encodeFieldsChecked, encodeFields,
      encodeFieldChecked, encodeField]
  · simp [InstantiateCall.fields, InstantiateCall.encode, encodeFieldsChecked,
      encodeFields, encodeFieldChecked, encodeField, hih]
  · have hcv2 : cc.value < 340282366920938463463374607431768211456 := by
      have hp : (256 : Nat) ^ 16 = 340282366920938463463374607431768211456 := by
        norm_num
      omega
    simp [CallCall.fields, CallCall.encode, encodeFieldsChecked, encodeFields,
      encodeFieldChecked, encodeField, hcd, hcv2]

theorem claim_C9_encode_total_witness :
    encodeFieldsChecked (PutCodeCall.fields ⟨[]⟩) =
      some (PutCodeCall.encode ⟨[]⟩) ∧
    encodeFieldsChecked (InstantiateCall.fields
        ⟨0, 18446744073709551615, List.replicate 32 0, []⟩) =
      some (InstantiateCall.encode ⟨0, 18446744073709551615, List.replicate 32 0, []⟩) ∧
    encodeFieldsChecked (CallCall.fields
        ⟨List.replicate 32 0, 340282366920938463463374607431768211455,
          18446744073709551615, []⟩) =
      some (CallCall.encode ⟨List.replicate 32 0,
        340282366920938463463374607431768211455, 18446744073709551615, []⟩) :=
  claim_C9_encode_total ⟨[]⟩ ⟨0, 18446744073709551615, List.replicate 32 0, []⟩
    ⟨List.replicate 32 0, 340282366920938463463374607431768211455,
      18446744073709551615, []⟩
    (by decide) (by decide) (by norm_num)

/-- C10: the encoding form of a field is decided by its per-field
declaration, not by its logical type: `Balance` 5 contributes the one-byte
compact form as `InstantiateCall.endowment` (declared `#[codec(compact)]`)
but the 16-byte fixed-width form as `CallCall.value` (unannotated), and the
two encodings differ in length and content. -/
theorem claim_C10_per_field_form :
    (InstantiateCall.fields ⟨5, 0, List.replicate 32 0, []⟩).head? =
      some (FieldVal.compactInt 5) ∧
    (CallCall.fields ⟨List.replicate 32 0, 5, 0, []⟩)[1]? =
      some (FieldVal.fixedU128 5) ∧
    encodeField (FieldVal.compactInt 5) = [20] ∧
    encodeField (FieldVal.fixedU128 5) =
      [5, 0, 0, 0, 0, 0, 0, 0, 0, 0, 0, 0, 0, 0, 0, 0] ∧
    (encodeField (FieldVal.compactInt 5)).length ≠
      (encodeField (FieldVal.fixedU128 5)).length ∧
    encodeField (FieldVal.compactInt 5) ≠ encodeField (FieldVal.fixedU128 5) := by
  refine ⟨rfl, rfl, ?_, ?_, ?_, ?_⟩ <;> decide

end Subxt
